import Mathlib

/-!
Verification of the token-sequence alignment and revision-grouping engine
(`tools/trace_lcs.py`) and the section-locator heuristics
(`tools/extract_section.py`).

Python strings are modelled as Lean `String` (for tokens) or `List Char`
(for character-by-character scanning); Python lists as Lean `List`;
`None`-returning functions as `Option`.
-/

namespace Redline

/-- The three-valued edit operation tag (`class EditOp(Enum)`). -/
inductive EditOp where
  | EQUAL
  | DELETE
  | INSERT
deriving DecidableEq

/-- One alignment decision (`@dataclass class Edit`): operation, token run,
and optional source positions (`pos1` in sequence 1, `pos2` in sequence 2). -/
structure Edit where
  op : EditOp
  tokens : List String
  pos1 : Option Nat
  pos2 : Option Nat
deriving DecidableEq

/-! ## Alignment matrix builder (`compute_lcs_matrix`)

The Python code fills a dense `(m+1) x (n+1)` table row-major, each row
computed from the previous one.  The mutable row-by-row fill is embedded
as explicit row recursion: `nextRowAux` walks sequence 2 carrying the
loop state `diag = matrix[i-1][j-1]`, `left = matrix[i][j-1]` and the
remaining tail `up :: rest` of the previous row. -/

/-- Inner loop of the fill: produces entries `matrix[i][1..n]` from the
previous row's tail, mirroring
`matrix[i][j] = matrix[i-1][j-1] + 1` if tokens match else
`max(matrix[i-1][j], matrix[i][j-1])`. -/
def nextRowAux (a : String) : List String → Nat → Nat → List Nat → List Nat
  | [], _, _, _ => []
  | _ :: _, _, _, [] => []
  | b :: bs, diag, left, up :: rest =>
    let v := if a = b then diag + 1 else max up left
    v :: nextRowAux a bs up v rest

/-- One full row `matrix[i]` (entry 0 is always 0) from row `matrix[i-1]`. -/
def nextRow (a : String) (seq2 : List String) (prev : List Nat) : List Nat :=
  match prev with
  | [] => [0]
  | p :: rest => 0 :: nextRowAux a seq2 p 0 rest

/-- Rows `matrix[1..m]`, each computed from its predecessor
(the outer `for i in range(1, m + 1)` loop). -/
def lcsRows (seq2 : List String) : List String → List Nat → List (List Nat)
  | [], _ => []
  | a :: as, prev =>
    let r := nextRow a seq2 prev
    r :: lcsRows seq2 as r

/-- Python `compute_lcs_matrix(seq1, seq2)`: the `(m+1) x (n+1)` LCS length table,
row 0 all zeros. -/
def compute_lcs_matrix (seq1 seq2 : List String) : List (List Nat) :=
  let row0 := List.replicate (seq2.length + 1) 0
  row0 :: lcsRows seq2 seq1 row0

/-- Entry `matrix[i][j]` (Python indexing of the list-of-lists). -/
def mGet (matrix : List (List Nat)) (i j : Nat) : Nat :=
  (matrix.getD i []).getD j 0

/-! ## Backtracker (`backtrack_lcs`)

The Python `while i > 0 or j > 0` walk, emitting edits in reverse
document order; `backtrack_lcs` reverses once at the end
(`edits.reverse()`). -/

/-- The backward walk from `(i, j)`, producing edits in walk
(reverse-document) order.  Branch order mirrors the source:
match / insert (with the `i == 0 or matrix[i][j-1] >= matrix[i-1][j]`
guard) / delete. -/
def backtrackAux (matrix : List (List Nat)) (seq1 seq2 : List String) :
    Nat → Nat → List Edit
  | 0, 0 => []
  | 0, j + 1 =>
    Edit.mk EditOp.INSERT [seq2.getD j ""] none (some j) ::
      backtrackAux matrix seq1 seq2 0 j
  | i + 1, 0 =>
    Edit.mk EditOp.DELETE [seq1.getD i ""] (some i) none ::
      backtrackAux matrix seq1 seq2 i 0
  | i + 1, j + 1 =>
    if seq1.getD i "" = seq2.getD j "" then
      Edit.mk EditOp.EQUAL [seq1.getD i ""] (some i) (some j) ::
        backtrackAux matrix seq1 seq2 i j
    else if mGet matrix (i + 1) j ≥ mGet matrix i (j + 1) then
      Edit.mk EditOp.INSERT [seq2.getD j ""] none (some j) ::
        backtrackAux matrix seq1 seq2 (i + 1) j
    else
      Edit.mk EditOp.DELETE [seq1.getD i ""] (some i) none ::
        backtrackAux matrix seq1 seq2 i (j + 1)
termination_by i j => (i, j)

/-- Python `backtrack_lcs(matrix, seq1, seq2)`: walk from `(m, n)` and reverse. -/
def backtrack_lcs (matrix : List (List Nat)) (seq1 seq2 : List String) :
    List Edit :=
  (backtrackAux matrix seq1 seq2 seq1.length seq2.length).reverse

/-! ## Coalescer (`coalesce_edits`) -/

/-- The running-group loop: `current` is the group under construction;
a same-operation edit extends its token run (positions untouched),
a different operation closes the group and starts a fresh copy of the
next edit. -/
def coalesceAux (current : Edit) : List Edit → List Edit
  | [] => [current]
  | e :: rest =>
    if e.op = current.op then
      coalesceAux (Edit.mk current.op (current.tokens ++ e.tokens)
        current.pos1 current.pos2) rest
    else
      current :: coalesceAux (Edit.mk e.op e.tokens e.pos1 e.pos2) rest

/-- Python `coalesce_edits(edits)`: empty input yields empty output, otherwise
start from a copy of the first edit. -/
def coalesce_edits : List Edit → List Edit
  | [] => []
  | e :: rest => coalesceAux (Edit.mk e.op e.tokens e.pos1 e.pos2) rest

/-! ## Tokenizer (`tokenize_words`) -/

/-- The whitespace set of the tokenizer: `char in ' \t\n\r' + NBSP`. -/
def isTokWs (c : Char) : Bool :=
  [' ', '\t', '\n', '\r', '\u00A0'].contains c

/-- The character loop of `tokenize_words`, carrying the `current`
word accumulator; the `[]` case is the trailing `if current:` flush. -/
def tokenize_words_aux (current : List Char) : List Char → List (List Char)
  | [] => if current = [] then [] else [current]
  | c :: rest =>
    if isTokWs c then
      if current = [] then [c] :: tokenize_words_aux [] rest
      else current :: [c] :: tokenize_words_aux [] rest
    else
      tokenize_words_aux (current ++ [c]) rest

/-- Python `tokenize_words(text)` over the characters of `text`; each produced
token is re-packed as a `String`. -/
def tokenize_words (text : String) : List String :=
  (tokenize_words_aux [] text.data).map fun l => String.mk l

/-- Python `''.join(tokens)` (left fold of string append over `""`). -/
def joinAll (tokens : List String) : String :=
  tokens.foldl (· ++ ·) ""

/-! ## Section locator (`extract_section.py` and the copy in `trace_lcs.py`)

The regular expression

  `^[\s NBSP]*(\d+(?:\.\d+)*\.?|\([a-zA-Z]\)|\([ivxlcdm]+\)|[a-zA-Z]\.|[ivxlcdmIVXLCDM]+\.)[\s NBSP]+`

is modelled by a deterministic matcher.  The character class `[\s NBSP]`
is modelled over the whitespace characters relevant to this codebase
(space, tab, newline, carriage return, vertical tab, form feed, NEL and
NBSP); every quantifier in the pattern is greedy, and greedy matching is
exact here because no alternative can succeed on a shorter take (the
character following each run is constrained to a disjoint class), except
for the optional trailing `\.?` of the numeric alternative, whose
one-step backtracking is spelled out in `tryNumeric`.  Alternatives are
tried in source order, as Python's `re` does. -/

/-- The characters matched by `[\s NBSP]` on the inputs this tool sees. -/
def isPySpace (c : Char) : Bool :=
  [' ', '\t', '\n', '\r', '\x0B', '\x0C', '\u0085', '\u00A0'].contains c

/-- Class `[ivxlcdm]` (the lowercase roman-numeral letters). -/
def isRomanLower (c : Char) : Bool :=
  ['i', 'v', 'x', 'l', 'c', 'd', 'm'].contains c

/-- Class `[ivxlcdmIVXLCDM]` (roman-numeral letters, both cases). -/
def isRomanAny (c : Char) : Bool :=
  ['i', 'v', 'x', 'l', 'c', 'd', 'm',
   'I', 'V', 'X', 'L', 'C', 'D', 'M'].contains c

/-- Does the remaining input start with a `[\s NBSP]` character?
(The pattern ends in `[\s NBSP]+`, so one such character suffices.) -/
def hasWsAhead (l : List Char) : Bool :=
  match l with
  | c :: _ => isPySpace c
  | [] => false

/-- Group `(?:\.\d+)*`, greedily: consume repeated `.digits` groups, returning
the consumed characters and the rest.  The recursion is made structural
with a depth budget `fuel`; every recursive step consumes at least two
characters while `fuel` drops by one, so any budget of at least the
input length never binds (`matchDotGroupsF_fuel_free`). -/
def matchDotGroupsF : Nat → List Char → List Char × List Char
  | 0, l => ([], l)
  | fuel + 1, l =>
    match l with
    | '.' :: rest =>
      let ds := rest.takeWhile Char.isDigit
      if ds = [] then ([], l)
      else
        let (more, fin) := matchDotGroupsF fuel (rest.dropWhile Char.isDigit)
        ('.' :: ds ++ more, fin)
    | _ => ([], l)

/-- Group `(?:\.\d+)*` with the budget set to the input length. -/
def matchDotGroups (l : List Char) : List Char × List Char :=
  matchDotGroupsF l.length l

/-- Alternative `\d+(?:\.\d+)*\.?` followed by `[\s NBSP]+`: the greedy
trailing `\.?` is kept only when whitespace follows it; otherwise the
match backtracks to the dotless marker, which then itself needs
whitespace ahead. -/
def tryNumeric (l : List Char) : Option (List Char) :=
  match l.takeWhile Char.isDigit, l.dropWhile Char.isDigit with
  | [], _ => none
  | d :: ds, rem =>
    match matchDotGroups rem with
    | (groups, rem2) =>
      match rem2 with
      | '.' :: rem3 =>
        if hasWsAhead rem3 then some ((d :: ds) ++ groups ++ ['.']) else none
      | rem2' => if hasWsAhead rem2' then some ((d :: ds) ++ groups) else none

/-- Alternative `\([a-zA-Z]\)` followed by `[\s NBSP]+`. -/
def tryAlphaParen (l : List Char) : Option (List Char) :=
  match l with
  | '(' :: c :: ')' :: rest =>
    if c.isAlpha && hasWsAhead rest then some ['(', c, ')'] else none
  | _ => none

/-- Alternative `\([ivxlcdm]+\)` followed by `[\s NBSP]+`. -/
def tryRomanParen (l : List Char) : Option (List Char) :=
  match l with
  | '(' :: rest =>
    match rest.takeWhile isRomanLower, rest.dropWhile isRomanLower with
    | r :: rs, ')' :: rem2 =>
      if hasWsAhead rem2 then some ('(' :: (r :: rs) ++ [')']) else none
    | _, _ => none
  | _ => none

/-- Alternative `[a-zA-Z]\.` followed by `[\s NBSP]+`. -/
def tryAlphaDot (l : List Char) : Option (List Char) :=
  match l with
  | c :: '.' :: rest =>
    if c.isAlpha && hasWsAhead rest then some [c, '.'] else none
  | _ => none

/-- Alternative `[ivxlcdmIVXLCDM]+\.` followed by `[\s NBSP]+`. -/
def tryRomanDot (l : List Char) : Option (List Char) :=
  match l.takeWhile isRomanAny, l.dropWhile isRomanAny with
  | r :: rs, '.' :: rem2 =>
    if hasWsAhead rem2 then some ((r :: rs) ++ ['.']) else none
  | _, _ => none

/-- Python `SECTION_PATTERN.match(text)`: strip leading `[\s NBSP]*`, then try
the five alternatives in source order; returns `group(1)` on success. -/
def sectionMatch (text : List Char) : Option (List Char) :=
  let l := text.dropWhile isPySpace
  tryNumeric l <|> tryAlphaParen l <|> tryRomanParen l <|>
    tryAlphaDot l <|> tryRomanDot l

/-- Python `is_section_start(text)`: `bool(SECTION_PATTERN.match(text))`. -/
def is_section_start (text : List Char) : Bool :=
  (sectionMatch text).isSome

/-- Python `str.strip()` (whitespace strip on both ends). -/
def pyStrip (l : List Char) : List Char :=
  ((l.dropWhile isPySpace).reverse.dropWhile isPySpace).reverse

/-- Python `str.lower()`, character-wise (the inputs here are ASCII). -/
def pyLower (l : List Char) : List Char :=
  l.map Char.toLower

/-- Python `marker.rstrip('.')`: drop all trailing dots. -/
def rstripDots (l : List Char) : List Char :=
  (l.reverse.dropWhile (· == '.')).reverse

/-- Python `marker.count('.')`. -/
def countDots (l : List Char) : Nat :=
  l.countP (· == '.')

/-- Anchored `^\d+(?:\.\d+)*\.?$` (full-match test in `get_section_level`). -/
def isNumericMarker (l : List Char) : Bool :=
  match l.takeWhile Char.isDigit, l.dropWhile Char.isDigit with
  | [], _ => false
  | _ :: _, rem =>
    match matchDotGroups rem with
    | (_, rem2) => rem2 = [] || rem2 = ['.']

/-- Anchored `^\([a-zA-Z]\)$`. -/
def isAlphaParenMarker (l : List Char) : Bool :=
  match l with
  | ['(', c, ')'] => c.isAlpha
  | _ => false

/-- Anchored `^\([ivxlcdm]+\)$` with `re.IGNORECASE`. -/
def isRomanParenMarker (l : List Char) : Bool :=
  match l with
  | '(' :: rest =>
    (rest.takeWhile isRomanAny ≠ []) && rest.dropWhile isRomanAny = [')']
  | _ => false

/-- Anchored `^[a-zA-Z]\.$`. -/
def isAlphaDotMarker (l : List Char) : Bool :=
  match l with
  | [c, '.'] => c.isAlpha
  | _ => false

/-- Anchored `^[ivxlcdmIVXLCDM]+\.$`. -/
def isRomanDotMarker (l : List Char) : Bool :=
  (l.takeWhile isRomanAny ≠ []) && l.dropWhile isRomanAny = ['.']

/-- Python `get_section_level(text)`: `(level, type)` of the section marker,
`(0, "")` when `text` has none.  The classifying patterns are tested in
source order: numeric, parenthetical alpha, parenthetical roman, dotted
alpha, dotted roman. -/
def get_section_level (text : List Char) : Nat × String :=
  match sectionMatch text with
  | none => (0, "")
  | some m =>
    let marker := pyStrip m
    if isNumericMarker marker then
      (countDots (rstripDots marker) + 1, "numeric")
    else if isAlphaParenMarker marker then (10, "alpha_paren")
    else if isRomanParenMarker marker then (11, "roman_paren")
    else if isAlphaDotMarker marker then (10, "alpha_dot")
    else if isRomanDotMarker marker then (11, "roman_dot")
    else (0, "")

/-- The shared found-test of `find_section` / `find_section_text`:
`text.lstrip().lower().startswith(section_id.lower())` and the match is
followed by end-of-string or one of space, tab, newline, NBSP. -/
def startsSection (sectionId text : List Char) : Bool :=
  let tn := pyLower (text.dropWhile isPySpace)
  let sn := pyLower sectionId
  sn.isPrefixOf tn &&
    (match tn.drop sn.length with
     | [] => true
     | c :: _ => [' ', '\t', '\n', '\u00A0'].contains c)

/-- The post-found loop of `find_section`: accumulate paragraphs, breaking
at the first one whose marker is of the target type at the target depth
or shallower, or at any numeric marker of level at most 2.
A paragraph text stands in for the paragraph element it came from. -/
def collectSection (targetLevel : Nat) (targetType : String) :
    List (List Char) → List (List Char)
  | [] => []
  | text :: rest =>
    if is_section_start text then
      let p := get_section_level text
      if p.2 = targetType ∧ p.1 ≤ targetLevel then []
      else if p.2 = "numeric" ∧ p.1 ≤ 2 then []
      else text :: collectSection targetLevel targetType rest
    else text :: collectSection targetLevel targetType rest

/-- Python `find_section(root, section_id)` over the document's paragraph texts:
scan for the first paragraph passing `startsSection`, then collect until
the boundary.  The XML tree walk that produces the paragraph list is
I/O and is not modelled; a document is its list of paragraph texts. -/
def find_section (paragraphs : List (List Char)) (sectionId : List Char) :
    List (List Char) :=
  match paragraphs with
  | [] => []
  | text :: rest =>
    if startsSection sectionId text then
      let p := get_section_level text
      text :: collectSection p.1 p.2 rest
    else find_section rest sectionId

/-- The post-found loop of `find_section_text` (`trace_lcs.py`): collect
paragraph texts until any paragraph matching the section pattern. -/
def fsCollect : List (List Char) → List (List Char)
  | [] => []
  | text :: rest =>
    if is_section_start text then [] else text :: fsCollect rest

/-- The scan of `find_section_text`: the accumulated `result_texts`. -/
def fsFind (sectionId : List Char) : List (List Char) → List (List Char)
  | [] => []
  | text :: rest =>
    if startsSection sectionId text then text :: fsCollect rest
    else fsFind sectionId rest

/-- Python `find_section_text(docx_path, section_id)` over the document's
paragraph texts: `' '.join(result_texts) if result_texts else None`.
The DOCX/XML extraction step is I/O and is not modelled. -/
def find_section_text (paragraphs : List (List Char))
    (sectionId : List Char) : Option (List Char) :=
  let texts := fsFind sectionId paragraphs
  if texts = [] then none else some (List.intercalate [' '] texts)

/-! ## Specification-side definitions for the LCS proofs -/

/-- Mathematical LCS length by head recursion (proved below to be the
maximal common-subsequence length).  This is the reference the matrix
entries are compared against. -/
def lcsLen : List String → List String → Nat
  | [], _ => 0
  | _ :: _, [] => 0
  | a :: as, b :: bs =>
    if a = b then lcsLen as bs + 1
    else max (lcsLen (a :: as) bs) (lcsLen as (b :: bs))
termination_by l1 l2 => l1.length + l2.length

theorem lcsLen_nil_right (l : List String) : lcsLen l [] = 0 := by
  cases l <;> simp [lcsLen]

theorem lcsLen_nil_left (l : List String) : lcsLen [] l = 0 := by
  simp [lcsLen]

/-- The ideal tail of matrix row for first-sequence-so-far `R` (reversed),
consumed second sequence `C` (reversed) and remaining second sequence
`bs`: entry `k` is the LCS length of `R` against the reversal of the
first `k+1` elements of `bs` appended to `C`. -/
def rowFor (R : List String) : List String → List String → List Nat
  | _, [] => []
  | C, b :: bs => lcsLen R (b :: C) :: rowFor R (b :: C) bs

/-- The ideal full matrix row for reversed first-sequence prefix `R`. -/
def fullRow (R B : List String) : List Nat :=
  0 :: rowFor R [] B

/-- The ideal rows `1..m` of the matrix, `R` being the reversed prefix of
the first sequence consumed so far. -/
def idealRows (B : List String) : List String → List String → List (List Nat)
  | _, [] => []
  | R, a :: as => fullRow (a :: R) B :: idealRows B (a :: R) as

theorem rowFor_nil_R (C bs : List String) :
    rowFor [] C bs = List.replicate bs.length 0 := by
  induction bs generalizing C with
  | nil => simp [rowFor]
  | cons b bs ih =>
    simp [rowFor, lcsLen_nil_left, List.replicate_succ, ih]

/-- Row 0 of the computed matrix is the ideal row for the empty prefix. -/
theorem replicate_eq_fullRow (B : List String) :
    List.replicate (B.length + 1) 0 = fullRow [] B := by
  simp [fullRow, List.replicate_succ, rowFor_nil_R]

/-- The inner fill loop is exact: started with the correct diagonal,
left and previous-row-tail values, it produces the ideal next-row tail. -/
theorem nextRowAux_spec (a : String) (R : List String) :
    ∀ (bs C : List String),
      nextRowAux a bs (lcsLen R C) (lcsLen (a :: R) C) (rowFor R C bs)
        = rowFor (a :: R) C bs := by
  intro bs
  induction bs with
  | nil => intro C; simp [rowFor, nextRowAux]
  | cons b bs ih =>
    intro C
    simp only [rowFor, nextRowAux]
    have hmain : (if a = b then lcsLen R C + 1
        else max (lcsLen R (b :: C)) (lcsLen (a :: R) C))
        = lcsLen (a :: R) (b :: C) := by
      rw [lcsLen]
      by_cases hab : a = b <;> simp [hab, Nat.max_comm]
    rw [hmain, ih (b :: C)]

/-- One step of the outer loop preserves the row invariant. -/
theorem nextRow_fullRow (a : String) (R B : List String) :
    nextRow a B (fullRow R B) = fullRow (a :: R) B := by
  have h0 : lcsLen R [] = 0 := lcsLen_nil_right R
  have h1 : lcsLen (a :: R) [] = 0 := lcsLen_nil_right (a :: R)
  have := nextRowAux_spec a R B []
  rw [h0, h1] at this
  simp [nextRow, fullRow, this]

theorem lcsRows_spec (B : List String) :
    ∀ (as R : List String),
      lcsRows B as (fullRow R B) = idealRows B R as := by
  intro as
  induction as with
  | nil => intro R; simp [lcsRows, idealRows]
  | cons a as ih =>
    intro R
    simp only [lcsRows, idealRows, nextRow_fullRow]
    rw [ih (a :: R)]

/-- The computed matrix is exactly the ideal rows. -/
theorem compute_lcs_matrix_eq (A B : List String) :
    compute_lcs_matrix A B = fullRow [] B :: idealRows B [] A := by
  simp only [compute_lcs_matrix, replicate_eq_fullRow, lcsRows_spec]

theorem idealRows_getD_last (B : List String) :
    ∀ (as R : List String), as ≠ [] →
      (idealRows B R as).getD (as.length - 1) []
        = fullRow (as.reverse ++ R) B := by
  intro as
  induction as with
  | nil => intro R h; exact absurd rfl h
  | cons a as ih =>
    intro R _
    cases as with
    | nil => simp [idealRows]
    | cons a' as' =>
      have hlen : (a :: a' :: as').length - 1 = (a' :: as').length := by
        simp
      rw [idealRows, hlen]
      have hpos : (a' :: as').length = ((a' :: as').length - 1) + 1 := by
        simp
      rw [hpos, List.getD_cons_succ]
      rw [ih (a :: R) (by simp)]
      simp

/-- The last row of the computed matrix is the ideal row for the full
(reversed) first sequence. -/
theorem matrix_last_row (A B : List String) :
    (compute_lcs_matrix A B).getD A.length [] = fullRow A.reverse B := by
  rw [compute_lcs_matrix_eq]
  cases A with
  | nil => simp
  | cons a as =>
    have hlen : (a :: as).length = ((a :: as).length - 1) + 1 := by simp
    rw [hlen, List.getD_cons_succ]
    rw [idealRows_getD_last B (a :: as) [] (by simp)]
    simp

theorem rowFor_getD_last (R : List String) :
    ∀ (bs C : List String), bs ≠ [] →
      (rowFor R C bs).getD (bs.length - 1) 0 = lcsLen R (bs.reverse ++ C) := by
  intro bs
  induction bs with
  | nil => intro C h; exact absurd rfl h
  | cons b bs ih =>
    intro C _
    cases bs with
    | nil => simp [rowFor]
    | cons b' bs' =>
      have hlen : (b :: b' :: bs').length - 1 = (b' :: bs').length := by simp
      rw [rowFor, hlen]
      have hpos : (b' :: bs').length = ((b' :: bs').length - 1) + 1 := by simp
      rw [hpos, List.getD_cons_succ]
      rw [ih (b :: C) (by simp)]
      simp

/-- The last entry of the ideal full row is the LCS length of the two
reversed sequences. -/
theorem fullRow_getD_last (R B : List String) :
    (fullRow R B).getD B.length 0 = lcsLen R B.reverse := by
  cases B with
  | nil => simp [fullRow, lcsLen_nil_right]
  | cons b bs =>
    rw [fullRow]
    have hlen : (b :: bs).length = ((b :: bs).length - 1) + 1 := by simp
    rw [hlen, List.getD_cons_succ]
    rw [rowFor_getD_last R (b :: bs) [] (by simp)]
    simp

/-- Entry `matrix[m][n]` is the (head-recursive) LCS length of the reversed
sequences. -/
theorem mGet_last (A B : List String) :
    mGet (compute_lcs_matrix A B) A.length B.length
      = lcsLen A.reverse B.reverse := by
  rw [mGet, matrix_last_row, fullRow_getD_last]

/-- Value `lcsLen X Y` is attained by some common subsequence. -/
theorem lcsLen_exists (X Y : List String) :
    ∃ l : List String, l.Sublist X ∧ l.Sublist Y ∧ l.length = lcsLen X Y := by
  induction X, Y using lcsLen.induct with
  | case1 Y => exact ⟨[], List.nil_sublist _, List.nil_sublist _,
      (lcsLen_nil_left Y).symm⟩
  | case2 a as => exact ⟨[], List.nil_sublist _, List.nil_sublist _,
      (lcsLen_nil_right _).symm⟩
  | case3 as b bs ih =>
    obtain ⟨l, h1, h2, h3⟩ := ih
    refine ⟨b :: l, h1.cons₂ b, h2.cons₂ b, ?_⟩
    simp [lcsLen, h3]
  | case4 a as b bs hab ih1 ih2 =>
    rcases Nat.le_total (lcsLen (a :: as) bs) (lcsLen as (b :: bs)) with h | h
    · obtain ⟨l, h1, h2, h3⟩ := ih2
      refine ⟨l, h1.cons a, h2, ?_⟩
      rw [lcsLen, if_neg hab, Nat.max_eq_right h, h3]
    · obtain ⟨l, h1, h2, h3⟩ := ih1
      refine ⟨l, h1, h2.cons b, ?_⟩
      rw [lcsLen, if_neg hab, Nat.max_eq_left h, h3]

/-- No common subsequence is longer than `lcsLen X Y`. -/
theorem lcsLen_ge (X Y : List String) :
    ∀ l : List String, l.Sublist X → l.Sublist Y → l.length ≤ lcsLen X Y := by
  induction X, Y using lcsLen.induct with
  | case1 Y =>
    intro l h1 _
    simp [List.sublist_nil.mp h1, lcsLen_nil_left]
  | case2 a as =>
    intro l _ h2
    simp [List.sublist_nil.mp h2, lcsLen_nil_right]
  | case3 as b bs ih =>
    intro l h1 h2
    rw [lcsLen, if_pos rfl]
    cases l with
    | nil => simp
    | cons c l =>
      cases h1 with
      | cons _ h1' =>
        cases h2 with
        | cons _ h2' =>
          exact le_trans (ih (c :: l) h1' h2') (Nat.le_succ _)
        | cons₂ _ h2' =>
          have hl1 : l.Sublist as := ((List.sublist_cons_self _ l).trans h1')
          simpa using Nat.succ_le_succ (ih l hl1 h2')
      | cons₂ _ h1' =>
        cases h2 with
        | cons _ h2' =>
          have hl2 : l.Sublist bs := ((List.sublist_cons_self _ l).trans h2')
          simpa using Nat.succ_le_succ (ih l h1' hl2)
        | cons₂ _ h2' =>
          simpa using Nat.succ_le_succ (ih l h1' h2')
  | case4 a as b bs hab ih1 ih2 =>
    intro l h1 h2
    rw [lcsLen, if_neg hab]
    cases h2 with
    | cons _ h2' =>
      exact le_trans (ih1 l h1 h2') (Nat.le_max_left _ _)
    | cons₂ _ h2' =>
      cases h1 with
      | cons _ h1' =>
        exact le_trans (ih2 _ h1' (h2'.cons₂ b)) (Nat.le_max_right _ _)
      | cons₂ _ h1' => exact absurd rfl hab

/-- C1: `matrix[|A|][|B|]` of `compute_lcs_matrix(A, B)` is the length of
some common subsequence of `A` and `B`, and no common subsequence of `A`
and `B` is longer. -/
theorem compute_lcs_matrix_optimal (A B : List String) :
    (∃ l : List String, l.Sublist A ∧ l.Sublist B ∧
        l.length = mGet (compute_lcs_matrix A B) A.length B.length) ∧
      ∀ l : List String, l.Sublist A → l.Sublist B →
        l.length ≤ mGet (compute_lcs_matrix A B) A.length B.length := by
  rw [mGet_last]
  constructor
  · obtain ⟨l, h1, h2, h3⟩ := lcsLen_exists A.reverse B.reverse
    refine ⟨l.reverse, List.sublist_reverse_iff.mp h1,
      List.sublist_reverse_iff.mp h2, ?_⟩
    simpa using h3
  · intro l h1 h2
    have := lcsLen_ge A.reverse B.reverse l.reverse
      (List.reverse_sublist.mpr h1) (List.reverse_sublist.mpr h2)
    simpa using this

/-- Witness for `compute_lcs_matrix_optimal` at `A = B = ["x"]`. -/
theorem compute_lcs_matrix_optimal_witness :
    (["x"] : List String).length
      ≤ mGet (compute_lcs_matrix ["x"] ["x"]) 1 1 :=
  (compute_lcs_matrix_optimal ["x"] ["x"]).2 ["x"]
    (List.Sublist.refl _) (List.Sublist.refl _)

/-! ## Edit-script reconstruction (claim C2) -/

/-- Membership of an edit in the `EQUAL` + `DELETE` side. -/
def isSrcEdit (e : Edit) : Bool :=
  decide (e.op = EditOp.EQUAL) || decide (e.op = EditOp.DELETE)

/-- Membership of an edit in the `EQUAL` + `INSERT` side. -/
def isTgtEdit (e : Edit) : Bool :=
  decide (e.op = EditOp.EQUAL) || decide (e.op = EditOp.INSERT)

/-- Concatenated token runs of the `EQUAL` and `DELETE` edits, in order. -/
def sourceTokens (edits : List Edit) : List String :=
  (edits.filter isSrcEdit).flatMap fun e => e.tokens

/-- Concatenated token runs of the `EQUAL` and `INSERT` edits, in order. -/
def targetTokens (edits : List Edit) : List String :=
  (edits.filter isTgtEdit).flatMap fun e => e.tokens

theorem sourceTokens_append (xs ys : List Edit) :
    sourceTokens (xs ++ ys) = sourceTokens xs ++ sourceTokens ys := by
  simp [sourceTokens, List.filter_append]

theorem targetTokens_append (xs ys : List Edit) :
    targetTokens (xs ++ ys) = targetTokens xs ++ targetTokens ys := by
  simp [targetTokens, List.filter_append]

theorem getD_eq_getElem_of_lt {l : List String} {i : Nat} (h : i < l.length) :
    l.getD i "" = l[i] := by
  simp [List.getD_eq_getElem?_getD, List.getElem?_eq_getElem h]

theorem take_succ_of_lt {l : List String} {i : Nat} (h : i < l.length) :
    l.take (i + 1) = l.take i ++ [l[i]] := by
  rw [List.take_succ, List.getElem?_eq_getElem h]
  rfl

theorem targetTokens_single_equal (t : String) (p1 p2 : Option Nat) :
    targetTokens [Edit.mk EditOp.EQUAL [t] p1 p2] = [t] := by
  simp [targetTokens, isTgtEdit]

/-- The walk from `(i, j)` (reversed into document order) reconstructs
the first `i` tokens of sequence 1 on the `EQUAL`+`DELETE` side and the
first `j` tokens of sequence 2 on the `EQUAL`+`INSERT` side — for any
matrix argument whatsoever. -/
theorem backtrackAux_reconstruct (M : List (List Nat)) (s1 s2 : List String) :
    ∀ i j : Nat, i ≤ s1.length → j ≤ s2.length →
      sourceTokens (backtrackAux M s1 s2 i j).reverse = s1.take i ∧
        targetTokens (backtrackAux M s1 s2 i j).reverse = s2.take j := by
  intro i j
  induction i, j using backtrackAux.induct M s1 s2 with
  | case1 =>
    intro _ _
    simp [backtrackAux, sourceTokens, targetTokens]
  | case2 j ih =>
    intro hi hj
    have hj' : j < s2.length := hj
    obtain ⟨ih1, ih2⟩ := ih hi (Nat.le_of_lt hj')
    rw [backtrackAux]
    constructor
    · rw [List.reverse_cons, sourceTokens_append, ih1]
      simp [sourceTokens, isSrcEdit]
    · rw [List.reverse_cons, targetTokens_append, ih2,
        take_succ_of_lt hj', getD_eq_getElem_of_lt hj']
      simp [targetTokens, isTgtEdit]
  | case3 i ih =>
    intro hi hj
    have hi' : i < s1.length := hi
    obtain ⟨ih1, ih2⟩ := ih (Nat.le_of_lt hi') hj
    rw [backtrackAux]
    constructor
    · rw [List.reverse_cons, sourceTokens_append, ih1,
        take_succ_of_lt hi', getD_eq_getElem_of_lt hi']
      simp [sourceTokens, isSrcEdit]
    · rw [List.reverse_cons, targetTokens_append, ih2]
      simp [targetTokens, isTgtEdit]
  | case4 i j heq ih =>
    intro hi hj
    have hi' : i < s1.length := hi
    have hj' : j < s2.length := hj
    obtain ⟨ih1, ih2⟩ := ih (Nat.le_of_lt hi') (Nat.le_of_lt hj')
    rw [backtrackAux, if_pos heq]
    constructor
    · rw [List.reverse_cons, sourceTokens_append, ih1,
        take_succ_of_lt hi', getD_eq_getElem_of_lt hi']
      simp [sourceTokens, isSrcEdit]
    · rw [List.reverse_cons, targetTokens_append, ih2, take_succ_of_lt hj',
        targetTokens_single_equal, heq, getD_eq_getElem_of_lt hj']
  | case5 i j heq hge ih =>
    intro hi hj
    have hj' : j < s2.length := hj
    obtain ⟨ih1, ih2⟩ := ih hi (Nat.le_of_lt hj')
    rw [backtrackAux, if_neg heq, if_pos hge]
    constructor
    · rw [List.reverse_cons, sourceTokens_append, ih1]
      simp [sourceTokens, isSrcEdit]
    · rw [List.reverse_cons, targetTokens_append, ih2,
        take_succ_of_lt hj', getD_eq_getElem_of_lt hj']
      simp [targetTokens, isTgtEdit]
  | case6 i j heq hlt ih =>
    intro hi hj
    have hi' : i < s1.length := hi
    obtain ⟨ih1, ih2⟩ := ih (Nat.le_of_lt hi') hj
    rw [backtrackAux, if_neg heq, if_neg hlt]
    constructor
    · rw [List.reverse_cons, sourceTokens_append, ih1,
        take_succ_of_lt hi', getD_eq_getElem_of_lt hi']
      simp [sourceTokens, isSrcEdit]
    · rw [List.reverse_cons, targetTokens_append, ih2]
      simp [targetTokens, isTgtEdit]

/-- C2: on the raw edit script of `backtrack_lcs(compute_lcs_matrix(A, B),
A, B)`, concatenating the `EQUAL` and `DELETE` token runs in script
order reproduces `A` exactly, and concatenating the `EQUAL` and `INSERT`
token runs reproduces `B` exactly. -/
theorem backtrack_lcs_reconstruct (A B : List String) :
    sourceTokens (backtrack_lcs (compute_lcs_matrix A B) A B) = A ∧
      targetTokens (backtrack_lcs (compute_lcs_matrix A B) A B) = B := by
  have h := backtrackAux_reconstruct (compute_lcs_matrix A B) A B
    A.length B.length (Nat.le_refl _) (Nat.le_refl _)
  simpa [backtrack_lcs] using h

/-! ## Tie-break rule (claim C3) -/

/-- C3: at position `(i+1, j+1)` with differing tokens and
`matrix[i+1][j] == matrix[i][j+1]`, the backtracker on the computed LCS
matrix emits an `INSERT` of `seq2[j]` and decrements the second index —
never a `DELETE`. -/
theorem backtrack_tie_inserts (seq1 seq2 : List String) (i j : Nat)
    (hne : seq1.getD i "" ≠ seq2.getD j "")
    (htie : mGet (compute_lcs_matrix seq1 seq2) (i + 1) j
      = mGet (compute_lcs_matrix seq1 seq2) i (j + 1)) :
    backtrackAux (compute_lcs_matrix seq1 seq2) seq1 seq2 (i + 1) (j + 1)
      = Edit.mk EditOp.INSERT [seq2.getD j ""] none (some j) ::
          backtrackAux (compute_lcs_matrix seq1 seq2) seq1 seq2 (i + 1) j := by
  rw [backtrackAux, if_neg hne, if_pos htie.ge]

/-- Witness for `backtrack_tie_inserts`: `seq1 = ["a","b"]`,
`seq2 = ["b","a"]` at `(i, j) = (2, 2)` is a tie (`matrix[2][1] = 1 =
matrix[1][2]`) and the step taken is the `INSERT` of `"a"`. -/
theorem backtrack_tie_inserts_witness :
    backtrackAux (compute_lcs_matrix ["a", "b"] ["b", "a"])
        ["a", "b"] ["b", "a"] 2 2
      = Edit.mk EditOp.INSERT [(["b", "a"] : List String).getD 1 ""]
          none (some 1) ::
          backtrackAux (compute_lcs_matrix ["a", "b"] ["b", "a"])
            ["a", "b"] ["b", "a"] 2 1 :=
  backtrack_tie_inserts ["a", "b"] ["b", "a"] 1 1 (by decide) (by decide)

/-! ## Tokenizer losslessness (claim C4) -/

theorem tokenize_words_aux_flatten :
    ∀ (rest current : List Char),
      (tokenize_words_aux current rest).flatten = current ++ rest := by
  intro rest
  induction rest with
  | nil =>
    intro current
    by_cases h : current = [] <;> simp [tokenize_words_aux, h]
  | cons c rest ih =>
    intro current
    by_cases hws : isTokWs c
    · by_cases h : current = [] <;>
        simp [tokenize_words_aux, hws, h, ih]
    · simp [tokenize_words_aux, hws, ih (current ++ [c])]

theorem mk_data_eq (s : String) : String.mk s.data = s := by
  cases s
  rfl

theorem foldl_append_mk (ls : List (List Char)) :
    ∀ s : String,
      List.foldl (· ++ ·) s (ls.map String.mk)
        = String.mk (s.data ++ ls.flatten) := by
  induction ls with
  | nil => intro s; simp [mk_data_eq]
  | cons l ls ih =>
    intro s
    rw [List.map_cons, List.foldl_cons, ih (s ++ String.mk l)]
    simp

/-- C4: `tokenize_words` is total (a Lean function), the empty string
yields the empty token sequence, and joining all returned tokens in
order reproduces the input text exactly. -/
theorem tokenize_words_lossless (text : String) :
    joinAll (tokenize_words text) = text ∧ tokenize_words "" = [] := by
  constructor
  · rw [tokenize_words, joinAll, foldl_append_mk]
    rw [tokenize_words_aux_flatten text.data []]
    simp [mk_data_eq]
  · rfl

/-! ## Coalescer length (claim C5) -/

theorem coalesceAux_length :
    ∀ (rest : List Edit) (c : Edit),
      (coalesceAux c rest).length ≤ rest.length + 1 ∧
        ((coalesceAux c rest).length = rest.length + 1 ↔
          List.Chain' (fun a b : Edit => a.op ≠ b.op) (c :: rest)) := by
  intro rest
  induction rest with
  | nil => intro c; simp [coalesceAux]
  | cons e rest ih =>
    intro c
    by_cases h : e.op = c.op
    · rw [coalesceAux, if_pos h]
      obtain ⟨hle, _⟩ :=
        ih (Edit.mk c.op (c.tokens ++ e.tokens) c.pos1 c.pos2)
      constructor
      · simp only [List.length_cons]
        omega
      · constructor
        · intro hlen
          simp only [List.length_cons] at hlen
          omega
        · intro hch
          exact absurd h.symm (List.chain'_cons.mp hch).1
    · rw [coalesceAux, if_neg h]
      have heta : Edit.mk e.op e.tokens e.pos1 e.pos2 = e := rfl
      rw [heta]
      obtain ⟨hle, hiff⟩ := ih e
      constructor
      · simp only [List.length_cons]
        omega
      · rw [List.chain'_cons]
        constructor
        · intro hlen
          simp only [List.length_cons] at hlen
          exact ⟨fun hc => h hc.symm, hiff.mp (by omega)⟩
        · intro hh
          have := hiff.mpr hh.2
          simp only [List.length_cons]
          omega

/-- C5: coalescing never lengthens the script, and preserves its length
exactly when no two adjacent raw edits share an operation. -/
theorem coalesce_edits_length (edits : List Edit) :
    (coalesce_edits edits).length ≤ edits.length ∧
      ((coalesce_edits edits).length = edits.length ↔
        List.Chain' (fun a b : Edit => a.op ≠ b.op) edits) := by
  cases edits with
  | nil => simp [coalesce_edits]
  | cons e rest =>
    rw [coalesce_edits]
    have heta : Edit.mk e.op e.tokens e.pos1 e.pos2 = e := rfl
    rw [heta]
    obtain ⟨hle, hiff⟩ := coalesceAux_length rest e
    exact ⟨by simpa using hle, by simpa using hiff⟩

/-! ## Identical sequences (claim C6) -/

theorem backtrackAux_self_all_equal (M : List (List Nat)) (A : List String) :
    ∀ i : Nat, ∀ e ∈ backtrackAux M A A i i, e.op = EditOp.EQUAL := by
  intro i
  induction i with
  | zero =>
    intro e he
    simp [backtrackAux] at he
  | succ i ih =>
    intro e he
    rw [backtrackAux, if_pos rfl] at he
    rcases List.mem_cons.mp he with h | h
    · rw [h]
    · exact ih e h

theorem coalesceAux_all_same_length :
    ∀ (rest : List Edit) (c : Edit), (∀ e ∈ rest, e.op = c.op) →
      (coalesceAux c rest).length = 1 := by
  intro rest
  induction rest with
  | nil => intro c _; simp [coalesceAux]
  | cons e rest ih =>
    intro c hall
    rw [coalesceAux, if_pos (hall e (List.mem_cons_self e rest))]
    exact ih _ fun e' he' => hall e' (List.mem_cons_of_mem _ he')

theorem coalesce_one_group (edits : List Edit) (hne : edits ≠ [])
    (hall : ∀ e ∈ edits, e.op = EditOp.EQUAL) :
    (coalesce_edits edits).length = 1 := by
  cases edits with
  | nil => exact absurd rfl hne
  | cons e rest =>
    rw [coalesce_edits]
    exact coalesceAux_all_same_length rest _ fun e' he' =>
      ((hall e' (List.mem_cons_of_mem _ he')).trans
        (hall e (List.mem_cons_self e rest)).symm)

/-- Counterexample to C6 as stated: for the identical pair
`A = B = []`, the edit script is empty and coalescing yields zero
groups, not exactly one. -/
theorem backtrack_identical_empty_counterexample :
    (coalesce_edits (backtrack_lcs
        (compute_lcs_matrix ([] : List String) []) [] [])).length ≠ 1 := by
  rw [backtrack_lcs]
  simp only [List.length_nil]
  rw [backtrackAux]
  simp [coalesce_edits]

/-- C6 (amended to nonempty sequences): for every nonempty `A`, the raw
edit script of `A` against itself consists only of `EQUAL` edits, and
coalescing it yields exactly one group. -/
theorem backtrack_identical_all_equal (A : List String) (hA : A ≠ []) :
    (∀ e ∈ backtrack_lcs (compute_lcs_matrix A A) A A,
        e.op = EditOp.EQUAL) ∧
      (coalesce_edits (backtrack_lcs (compute_lcs_matrix A A) A A)).length
        = 1 := by
  constructor
  · intro e he
    exact backtrackAux_self_all_equal _ A A.length e (List.mem_reverse.mp he)
  · apply coalesce_one_group
    · obtain ⟨a, as, rfl⟩ := List.exists_cons_of_ne_nil hA
      rw [backtrack_lcs]
      simp only [List.length_cons]
      rw [backtrackAux, if_pos rfl]
      simp
    · intro e he
      exact backtrackAux_self_all_equal _ A A.length e (List.mem_reverse.mp he)

/-- Witness for `backtrack_identical_all_equal` at `A = ["a"]`. -/
theorem backtrack_identical_all_equal_witness :
    (∀ e ∈ backtrack_lcs (compute_lcs_matrix ["a"] ["a"]) ["a"] ["a"],
        e.op = EditOp.EQUAL) ∧
      (coalesce_edits (backtrack_lcs (compute_lcs_matrix ["a"] ["a"])
          ["a"] ["a"])).length = 1 :=
  backtrack_identical_all_equal ["a"] (by decide)

/-! ## Coalesced groups are runs keeping the first edit's positions
(claim C7) -/

/-- The longest prefix of consecutive edits with operation `o`, and the
rest. -/
def spanOp (o : EditOp) : List Edit → List Edit × List Edit
  | [] => ([], [])
  | e :: rest =>
    if e.op = o then
      (e :: (spanOp o rest).1, (spanOp o rest).2)
    else ([], e :: rest)

theorem spanOp_snd_length (o : EditOp) :
    ∀ l : List Edit, (spanOp o l).2.length ≤ l.length := by
  intro l
  induction l with
  | nil => simp [spanOp]
  | cons e rest ih =>
    by_cases h : e.op = o
    · rw [spanOp, if_pos h]
      simp only [List.length_cons]
      omega
    · rw [spanOp, if_neg h]

/-- The maximal runs of consecutive same-operation edits, in order. -/
def opRuns : List Edit → List (List Edit)
  | [] => []
  | e :: rest =>
    (e :: (spanOp e.op rest).1) :: opRuns (spanOp e.op rest).2
termination_by l => l.length
decreasing_by
  have := spanOp_snd_length e.op rest
  simp only [List.length_cons]
  omega

/-- Merge one run into a single group: the run's operation, the
concatenation of its token runs, and the `pos1`/`pos2` of its FIRST
edit. -/
def mergeRun : List Edit → Edit
  | [] => Edit.mk EditOp.EQUAL [] none none
  | e :: rest =>
    Edit.mk e.op (e.tokens ++ rest.flatMap fun x => x.tokens) e.pos1 e.pos2

theorem spanOp_append (o : EditOp) :
    ∀ l : List Edit, (spanOp o l).1 ++ (spanOp o l).2 = l := by
  intro l
  induction l with
  | nil => simp [spanOp]
  | cons e rest ih =>
    by_cases h : e.op = o
    · rw [spanOp, if_pos h]
      simp [ih]
    · rw [spanOp, if_neg h]
      simp

theorem opRuns_flatten : ∀ edits : List Edit, (opRuns edits).flatten = edits := by
  intro edits
  induction edits using opRuns.induct with
  | case1 => simp [opRuns]
  | case2 e rest ih =>
    rw [opRuns]
    simp only [List.flatten_cons, ih]
    simp [spanOp_append]

theorem coalesceAux_runs :
    ∀ (rest : List Edit) (o : EditOp) (T : List String) (p1 p2 : Option Nat),
      coalesceAux (Edit.mk o T p1 p2) rest
        = Edit.mk o (T ++ (spanOp o rest).1.flatMap fun e => e.tokens) p1 p2
            :: (opRuns (spanOp o rest).2).map mergeRun := by
  intro rest
  induction rest with
  | nil => intro o T p1 p2; simp [coalesceAux, spanOp, opRuns]
  | cons e rest ih =>
    intro o T p1 p2
    by_cases h : e.op = o
    · rw [coalesceAux, if_pos h, ih, spanOp, if_pos h]
      simp [List.flatMap_cons, List.append_assoc]
    · rw [coalesceAux, if_neg h, spanOp, if_neg h, ih, opRuns]
      simp [mergeRun]

/-- C7: coalescing maps each maximal same-operation run of the raw
script to one group whose token run is the concatenation of the run's
tokens and whose `pos1`/`pos2` are exactly those of the run's first
edit; the runs partition the script in order. -/
theorem coalesce_edits_runs (edits : List Edit) :
    coalesce_edits edits = (opRuns edits).map mergeRun ∧
      (opRuns edits).flatten = edits := by
  refine ⟨?_, opRuns_flatten edits⟩
  cases edits with
  | nil => simp [coalesce_edits, opRuns]
  | cons e rest =>
    rw [coalesce_edits]
    have heta : Edit.mk e.op e.tokens e.pos1 e.pos2 = e := rfl
    rw [coalesceAux_runs rest e.op e.tokens e.pos1 e.pos2, opRuns]
    simp [mergeRun]

/-! ## The depth budget of `matchDotGroupsF` never binds -/

theorem matchDotGroupsF_nil (fuel : Nat) :
    matchDotGroupsF fuel [] = ([], []) := by
  cases fuel <;> simp [matchDotGroupsF]

theorem matchDotGroupsF_fuel_free :
    ∀ (f1 f2 : Nat) (l : List Char), l.length ≤ f1 → l.length ≤ f2 →
      matchDotGroupsF f1 l = matchDotGroupsF f2 l := by
  intro f1
  induction f1 with
  | zero =>
    intro f2 l h1 _
    have : l = [] := List.length_eq_zero.mp (Nat.le_zero.mp h1)
    subst this
    rw [matchDotGroupsF_nil, matchDotGroupsF_nil]
  | succ f ih =>
    intro f2 l h1 h2
    cases f2 with
    | zero =>
      have : l = [] := List.length_eq_zero.mp (Nat.le_zero.mp h2)
      subst this
      rw [matchDotGroupsF_nil, matchDotGroupsF_nil]
    | succ g =>
      match l with
      | [] => rw [matchDotGroupsF_nil, matchDotGroupsF_nil]
      | c :: rest =>
        by_cases hc : c = '.'
        · subst hc
          simp only [matchDotGroupsF]
          by_cases hds : rest.takeWhile Char.isDigit = []
          · simp [hds]
          · have hlen : (rest.dropWhile Char.isDigit).length ≤ rest.length :=
              (List.dropWhile_sublist Char.isDigit).length_le
            simp only [List.length_cons] at h1 h2
            have := ih g (rest.dropWhile Char.isDigit)
              (by omega) (by omega)
            simp [hds, this]
        · simp only [matchDotGroupsF]
          split
          · rename_i rest1 heq
            injection heq with hch
            exact absurd hch hc
          · rfl

/-! ## Section boundary (claim C8) -/

/-- A paragraph text ends the collection for a section of level
`targetLevel` and type `targetType` when it has a marker and either the
marker is of the same type at the same-or-shallower depth, or it is a
numeric marker at depth at most 2 (regardless of type). -/
def isBoundaryFor (targetLevel : Nat) (targetType : String)
    (text : List Char) : Bool :=
  is_section_start text &&
    ((decide ((get_section_level text).2 = targetType) &&
        decide ((get_section_level text).1 ≤ targetLevel)) ||
      (decide ((get_section_level text).2 = "numeric") &&
        decide ((get_section_level text).1 ≤ 2)))

theorem collectSection_eq_takeWhile (targetLevel : Nat) (targetType : String) :
    ∀ paras : List (List Char),
      collectSection targetLevel targetType paras
        = paras.takeWhile fun t => !isBoundaryFor targetLevel targetType t := by
  intro paras
  induction paras with
  | nil => simp [collectSection]
  | cons t rest ih =>
    rw [collectSection, List.takeWhile_cons]
    by_cases h1 : is_section_start t
    · by_cases h2 : (get_section_level t).2 = targetType ∧
          (get_section_level t).1 ≤ targetLevel
      · simp [h1, h2, isBoundaryFor, h2.1, h2.2]
      · by_cases h3 : (get_section_level t).2 = "numeric" ∧
            (get_section_level t).1 ≤ 2
        · simp only [if_pos h1, if_neg h2, if_pos h3]
          simp [isBoundaryFor, h1, h3.1, h3.2]
        · simp only [if_pos h1, if_neg h2, if_neg h3]
          have hb : isBoundaryFor targetLevel targetType t = false := by
            simp only [isBoundaryFor, h1, Bool.true_and]
            rcases Decidable.not_and_iff_or_not.mp h2 with h | h <;>
              rcases Decidable.not_and_iff_or_not.mp h3 with h' | h' <;>
              simp [h, h']
          simp [hb, ih]
    · have hb : isBoundaryFor targetLevel targetType t = false := by
        simp [isBoundaryFor, h1]
      simp [h1, hb, ih]

/-- C8: once the starting paragraph has been found, `find_section`
includes exactly the paragraphs up to (and not including) the first
subsequent boundary paragraph: one whose marker is of the same type at
the same-or-shallower depth, or any numeric marker at depth at most 2,
whichever comes first. -/
theorem find_section_spec (startText : List Char) (rest : List (List Char))
    (sid : List Char) (h : startsSection sid startText = true) :
    find_section (startText :: rest) sid
      = startText :: rest.takeWhile fun t =>
          !isBoundaryFor (get_section_level startText).1
            (get_section_level startText).2 t := by
  rw [find_section, if_pos h]
  show startText :: collectSection (get_section_level startText).1
    (get_section_level startText).2 rest = _
  rw [collectSection_eq_takeWhile]

/-- Witness for `find_section_spec`: a document where the section `3.1`
spans a body paragraph and an `(a)` subsection (a differently-typed,
deeper marker, hence no boundary) and stops at `3.2`. -/
theorem find_section_spec_witness :
    find_section ["3.1 Alpha".data, "body text".data, "(a) item".data,
        "3.2 Next".data] "3.1".data
      = "3.1 Alpha".data ::
          ["body text".data, "(a) item".data, "3.2 Next".data].takeWhile
            (fun t => !isBoundaryFor
              (get_section_level "3.1 Alpha".data).1
              (get_section_level "3.1 Alpha".data).2 t) :=
  find_section_spec "3.1 Alpha".data
    ["body text".data, "(a) item".data, "3.2 Next".data] "3.1".data
    (by decide)

/-! ## Found/not-found contract of `find_section_text` (claim C9) -/

theorem fsFind_eq_nil_iff (sid : List Char) :
    ∀ paras : List (List Char),
      fsFind sid paras = [] ↔ ∀ p ∈ paras, startsSection sid p = false := by
  intro paras
  induction paras with
  | nil => simp [fsFind]
  | cons t rest ih =>
    rw [fsFind]
    by_cases h : startsSection sid t
    · simp [h]
    · simp only [if_neg h, ih]
      simp [List.mem_cons, Bool.not_eq_true] at h ⊢
      exact fun _ => h

/-- C9: `find_section_text` returns `None` exactly when no paragraph
matches the query, and returns the space-joined concatenation of the
collected paragraph texts as soon as some paragraph matches. -/
theorem find_section_text_spec (paras : List (List Char)) (sid : List Char) :
    ((∀ p ∈ paras, startsSection sid p = false) →
        find_section_text paras sid = none) ∧
      ∀ p ∈ paras, startsSection sid p = true →
        find_section_text paras sid
          = some (List.intercalate [' '] (fsFind sid paras)) := by
  constructor
  · intro hall
    rw [find_section_text]
    simp [(fsFind_eq_nil_iff sid paras).mpr hall]
  · intro p hp hstart
    have hne : fsFind sid paras ≠ [] := by
      intro hnil
      have := ((fsFind_eq_nil_iff sid paras).mp hnil) p hp
      rw [hstart] at this
      cases this
    rw [find_section_text]
    simp [hne]

/-- Witness for `find_section_text_spec`: a document without the queried
section yields `none`; one with it yields the joined text. -/
theorem find_section_text_spec_witness :
    find_section_text ["intro".data] "3.1".data = none ∧
      find_section_text ["intro".data, "3.1 Alpha".data, "body".data]
          "3.1".data
        = some (List.intercalate [' ']
            (fsFind "3.1".data
              ["intro".data, "3.1 Alpha".data, "body".data])) :=
  ⟨(find_section_text_spec ["intro".data] "3.1".data).1 (by decide),
   (find_section_text_spec ["intro".data, "3.1 Alpha".data, "body".data]
      "3.1".data).2 "3.1 Alpha".data (by decide) (by decide)⟩

/-! ## Parenthetical roman letters classify as `alpha_paren` (claim C10) -/

theorem isAlpha_of_isRomanAny (c : Char) (h : isRomanAny c = true) :
    c.isAlpha = true := by
  have hmem : c ∈ ['i', 'v', 'x', 'l', 'c', 'd', 'm',
      'I', 'V', 'X', 'L', 'C', 'D', 'M'] := by
    rw [isRomanAny] at h
    exact List.elem_iff.mp h
  simp only [List.mem_cons, List.not_mem_nil, or_false] at hmem
  rcases hmem with rfl | rfl | rfl | rfl | rfl | rfl | rfl | rfl | rfl |
    rfl | rfl | rfl | rfl | rfl <;> decide

/-- C10: whenever the section pattern yields a single-letter
parenthetical marker `(c)` — in particular for the roman-numeral letters
`i`, `v`, `x`, `l`, `c`, `d`, `m` in either case — `get_section_level`
classifies it as `alpha_paren` at level 10, never as `roman_paren`,
because the parenthetical-alpha test precedes the parenthetical-roman
test. -/
theorem get_section_level_alpha_paren_wins (text : List Char) (c : Char)
    (hc : isRomanAny c = true)
    (hm : sectionMatch text = some ['(', c, ')']) :
    get_section_level text = (10, "alpha_paren") := by
  rw [get_section_level, hm]
  have hstrip : pyStrip ['(', c, ')'] = ['(', c, ')'] := by
    have h1 : isPySpace '(' = false := by decide
    have h2 : isPySpace ')' = false := by decide
    simp [pyStrip, List.dropWhile_cons, h1, h2]
  have hnum : isNumericMarker ['(', c, ')'] = false := by
    have : Char.isDigit '(' = false := by decide
    simp [isNumericMarker, List.takeWhile_cons, this]
  have halpha : isAlphaParenMarker ['(', c, ')'] = true := by
    simp [isAlphaParenMarker, isAlpha_of_isRomanAny c hc]
  simp only [hstrip, hnum, halpha]
  simp

/-- Witness for `get_section_level_alpha_paren_wins` at `"(i) item"`. -/
theorem get_section_level_alpha_paren_wins_witness :
    get_section_level "(i) item".data = (10, "alpha_paren") :=
  get_section_level_alpha_paren_wins "(i) item".data 'i' (by decide)
    (by decide)

end Redline
